import Mathlib

/-!
Shallow embedding of the geometry kernel (`bounding.rs`) and the radial layout
engine (`layout.rs`) of the conjure-visualizer crate.  Machine floats (`f64`)
are modelled as real numbers; 2-D vectors (`nalgebra::Vector2<f64>`) are
modelled by the structure `Vec2` below.  Folds over iterators are modelled by
folds over Lean lists in the same order and with the same initial accumulator
as the Rust code.
-/

namespace Conjure

/-- A 2-D vector of reals, modelling `nalgebra::Vector2<f64>`. -/
structure Vec2 where
  x : ℝ
  y : ℝ

namespace Vec2

/-- Component-wise addition. -/
def add (a b : Vec2) : Vec2 := ⟨a.x + b.x, a.y + b.y⟩

/-- Component-wise negation. -/
def neg (a : Vec2) : Vec2 := ⟨-a.x, -a.y⟩

/-- Component-wise subtraction. -/
def sub (a b : Vec2) : Vec2 := ⟨a.x - b.x, a.y - b.y⟩

/-- Scalar multiplication. -/
def smul (f : ℝ) (a : Vec2) : Vec2 := ⟨f * a.x, f * a.y⟩

/-- Dot product, modelling `Vector2::dot`. -/
def dot (a b : Vec2) : ℝ := a.x * b.x + a.y * b.y

/-- Squared Euclidean norm, modelling `Vector2::magnitude_squared`. -/
def magSq (a : Vec2) : ℝ := a.x * a.x + a.y * a.y

/-- Euclidean norm, modelling `Vector2::magnitude`. -/
noncomputable def mag (a : Vec2) : ℝ := Real.sqrt a.magSq

/-- The zero vector, modelling `Vector2::zeros()`. -/
def zero : Vec2 := ⟨0, 0⟩

/-- Counter-clockwise rotation by an angle, modelling
`Rotation2::new(angle) * v`. -/
noncomputable def rot (angle : ℝ) (a : Vec2) : Vec2 :=
  ⟨Real.cos angle * a.x - Real.sin angle * a.y,
   Real.sin angle * a.x + Real.cos angle * a.y⟩

/-- The unit vector at a given angle, modelling `vector![cos a, sin a]`. -/
noncomputable def dir (angle : ℝ) : Vec2 := ⟨Real.cos angle, Real.sin angle⟩

theorem magSq_nonneg (a : Vec2) : 0 ≤ a.magSq := by
  have hx : 0 ≤ a.x * a.x := mul_self_nonneg a.x
  have hy : 0 ≤ a.y * a.y := mul_self_nonneg a.y
  unfold magSq; linarith

theorem add_neg_add (a b : Vec2) : (a.add b).add b.neg = a := by
  cases a; cases b; simp [add, neg]

end Vec2

/-- The full turn `2π`, modelling `f64::consts::TAU`. -/
noncomputable def tau : ℝ := 2 * Real.pi

/-- Perpendicular foot of the origin on the infinite line through `from` and
`to`, modelling the free function `vector_to_line` in `bounding.rs`. -/
noncomputable def vectorToLine (a b : Vec2) : Vec2 :=
  let diff := b.sub a
  let factor := (a.magSq - a.dot b) / diff.magSq
  a.add (Vec2.smul factor diff)

/-- A line segment between two endpoints, modelling `bounding::Line`. -/
structure Line where
  start : Vec2
  stop : Vec2

namespace Line

/-- `Line::outer_coords_range`, exactly as written in the source: note that
both bounds of the second (y) range are computed with `min`. -/
def outerCoordsRange (l : Line) : (ℝ × ℝ) × (ℝ × ℝ) :=
  ((min l.start.x l.stop.x, max l.start.x l.stop.x),
   (min l.start.y l.stop.y, min l.start.y l.stop.y))

/-- `Line::outer_radius`. -/
noncomputable def outerRadius (l : Line) : ℝ :=
  Real.sqrt (max l.start.magSq l.stop.magSq)

/-- `Line::outer_radius_at` (the angle argument is unused by the source). -/
noncomputable def outerRadiusAt (l : Line) (_angle : ℝ) : ℝ :=
  Real.sqrt (max 0 (vectorToLine l.start l.stop).magSq)

/-- `<Line as ShapeMut>::scale`. -/
def scale (factor : ℝ) (l : Line) : Line :=
  ⟨Vec2.smul factor l.start, Vec2.smul factor l.stop⟩

/-- `<Line as ShapeMut>::rotate`. -/
noncomputable def rotate (angle : ℝ) (l : Line) : Line :=
  ⟨Vec2.rot angle l.start, Vec2.rot angle l.stop⟩

/-- `<Line as ShapeMut>::translate`. -/
def translate (amount : Vec2) (l : Line) : Line :=
  ⟨l.start.add amount, l.stop.add amount⟩

end Line

/-!
Polygon-derived queries (`impl<P: Polygon> OuterShape for P` and
`impl<P: Polygon> InnerShape for P`), generic over the vertex list a shape
produces, exactly as the generic impls in `bounding.rs` are generic over
`P::Vertices`.
-/

/-- The side list derived from a vertex list, modelling the `PolygonSides`
iterator: the perpendicular foot `vector_to_line(v_i, v_(i+1))` for each pair
of consecutive vertices, plus the closing side from the last vertex back to
the first. -/
noncomputable def sidesOf : List Vec2 → List Vec2
  | [] => []
  | v :: vs => (List.zip (v :: vs) (vs ++ [v])).map (fun p => vectorToLine p.1 p.2)

/-- One step of the `outer_coords_range` loop for polygons: shrink the range
starts with `min` against the vertex coordinates and grow the range ends with
`max`. -/
def coordsRangeStep (acc : (ℝ × ℝ) × (ℝ × ℝ)) (v : Vec2) : (ℝ × ℝ) × (ℝ × ℝ) :=
  ((min acc.1.1 v.x, max acc.1.2 v.x), (min acc.2.1 v.y, max acc.2.2 v.y))

/-- The generic `outer_coords_range` for polygons: fold over the vertices
starting from the range pair `(0..0, 0..0)`, taking component-wise min of the
starts and max of the ends. -/
def outerCoordsRangeOf (vs : List Vec2) : (ℝ × ℝ) × (ℝ × ℝ) :=
  vs.foldl coordsRangeStep ((0, 0), (0, 0))

/-- The generic `outer_radius` for polygons: square root of the fold of the
squared vertex magnitudes, starting from `0.0`. -/
noncomputable def outerRadiusOf (vs : List Vec2) : ℝ :=
  Real.sqrt (vs.foldl (fun acc v => max acc v.magSq) 0)

/-- The generic `outer_radius_at` for polygons: fold of the dot products of
the vertices with the unit direction, starting from `0.0`. -/
noncomputable def outerRadiusAtOf (vs : List Vec2) (angle : ℝ) : ℝ :=
  vs.foldl (fun acc v => max acc (v.dot (Vec2.dir angle))) 0

/-- The generic `inner_coords_range` for polygons: fold over the side feet
starting from `(-∞..∞, -∞..∞)`, taking max of starts and min of ends.  The
infinite initial bounds of the `f64` code are modelled in `EReal`. -/
noncomputable def innerCoordsRangeOf (vs : List Vec2) : (EReal × EReal) × (EReal × EReal) :=
  (sidesOf vs).foldl
    (fun acc s =>
      ((max acc.1.1 (s.x : EReal), min acc.1.2 (s.x : EReal)),
       (max acc.2.1 (s.y : EReal), min acc.2.2 (s.y : EReal))))
    ((⊥, ⊤), (⊥, ⊤))

/-- The fold inside the generic `inner_radius` for polygons: minimum of the
squared side-foot magnitudes, starting from `f64::INFINITY` (modelled as `⊤`
in `EReal`; the source takes the square root of this fold afterwards). -/
noncomputable def innerRadiusSqOf (vs : List Vec2) : EReal :=
  ((sidesOf vs).map (fun s => (s.magSq : EReal))).foldl min ⊤

/-- The generic `inner_radius_at` for polygons: for each side foot `s`,
compute `s.magnitude_squared() / s.dot(normal)`, keep only the non-negative
quotients, and fold with `min` starting from `f64::INFINITY` (modelled as `⊤`
in `EReal`). -/
noncomputable def innerRadiusAtOf (vs : List Vec2) (angle : ℝ) : EReal :=
  ((((sidesOf vs).map (fun s => s.magSq / s.dot (Vec2.dir angle))).filter
      (fun d => decide ((0 : ℝ) ≤ d))).map (fun d => ((d : ℝ) : EReal))).foldl min ⊤

/-- A circle with an offset, modelling `bounding::Circle`.  The `offset`
field stores the negated center, as in the source constructor. -/
structure Circle where
  radius : ℝ
  offset : Vec2

namespace Circle

/-- `Circle::new(radius, center)`: the offset stores the negated center. -/
def new (radius : ℝ) (center : Vec2) : Circle := ⟨radius, center.neg⟩

/-- `Circle::from_radius`. -/
def fromRadius (radius : ℝ) : Circle := ⟨radius, Vec2.zero⟩

/-- `Circle::outer_coords_range`. -/
def outerCoordsRange (c : Circle) : (ℝ × ℝ) × (ℝ × ℝ) :=
  ((c.offset.x - c.radius, c.offset.x + c.radius),
   (c.offset.y - c.radius, c.offset.y + c.radius))

/-- `Circle::outer_radius`. -/
noncomputable def outerRadius (c : Circle) : ℝ := c.radius + c.offset.mag

/-- `Circle::outer_radius_at`. -/
noncomputable def outerRadiusAt (c : Circle) (angle : ℝ) : ℝ :=
  c.offset.x * Real.cos angle + c.offset.y * Real.sin angle + c.radius

/-- `<Circle as ShapeMut>::translate`. -/
def translate (amount : Vec2) (c : Circle) : Circle :=
  ⟨c.radius, c.offset.add amount⟩

/-- `<Circle as ShapeMut>::rotate`: the offset is rotated by the negated
angle. -/
noncomputable def rotate (angle : ℝ) (c : Circle) : Circle :=
  ⟨c.radius, Vec2.rot (-angle) c.offset⟩

/-- `<Circle as ShapeMut>::scale`. -/
def scale (factor : ℝ) (c : Circle) : Circle :=
  ⟨c.radius * factor, Vec2.smul factor c.offset⟩

end Circle

/-- An oriented rectangle, modelling `bounding::Rect`. -/
structure Rect where
  width : ℝ
  height : ℝ
  offset : Vec2
  rotation : ℝ

namespace Rect

/-- `Rect::new(width, height, rotation, center)`. -/
def new (width height rotation : ℝ) (center : Vec2) : Rect :=
  ⟨width, height, center.neg, rotation⟩

/-- `Rect::from_width_height_rotation`. -/
def fromWidthHeightRotation (width height rotation : ℝ) : Rect :=
  ⟨width, height, Vec2.zero, rotation⟩

/-- `Rect::from_width_height`. -/
def fromWidthHeight (width height : ℝ) : Rect :=
  fromWidthHeightRotation width height 0

/-- The vertex list of a rectangle, modelling the `RectVertices` iterator:
the four signed corners at half width/height, rotated by the rectangle's
rotation, plus the offset. -/
noncomputable def verticesList (r : Rect) : List Vec2 :=
  [((-1 : ℝ), (-1 : ℝ)), (1, -1), (1, 1), (-1, 1)].map
    (fun p =>
      (Vec2.rot r.rotation ⟨p.1 * (r.width / 2), p.2 * (r.height / 2)⟩).add r.offset)

/-- `<Rect as ShapeMut>::translate`. -/
def translate (amount : Vec2) (r : Rect) : Rect :=
  ⟨r.width, r.height, r.offset.add amount, r.rotation⟩

/-- `<Rect as ShapeMut>::rotate`. -/
noncomputable def rotate (angle : ℝ) (r : Rect) : Rect :=
  ⟨r.width, r.height, Vec2.rot (-angle) r.offset, r.rotation + angle⟩

/-- `<Rect as ShapeMut>::scale`. -/
def scale (factor : ℝ) (r : Rect) : Rect :=
  ⟨r.width * factor, r.height * factor, Vec2.smul factor r.offset, r.rotation⟩

end Rect

/-- A regular polygon, modelling `bounding::RegularPolygon`. -/
structure RegularPolygon where
  numSides : ℕ
  outerRadius : ℝ
  rotation : ℝ
  offset : Vec2

namespace RegularPolygon

/-- `RegularPolygon::new`. -/
def new (numSides : ℕ) (outerRadius rotation : ℝ) : RegularPolygon :=
  ⟨numSides, outerRadius, rotation, ⟨0, 0⟩⟩

/-- The maximum of a non-empty list of reals, modelling
`Iterator::reduce(f64::max)` followed by `unwrap_or_default()` (which yields
`0.0` for an empty list). -/
def reduceMaxD : List ℝ → ℝ
  | [] => 0
  | v :: vs => vs.foldl max v

/-- `RegularPolygon::wrap(shape, num_sides, rotation)`: sample the wrapped
shape's support function at the face-bisector directions, take the maximum as
the unpadded inner radius, and divide by `cos(segment_angle / 2)` to obtain
the circumradius.  The wrapped shape enters only through its
`outer_radius_at` support function, which is the only query `wrap` calls. -/
noncomputable def wrap (outerRadAt : ℝ → ℝ) (numSides : ℕ) (rotation : ℝ) :
    RegularPolygon :=
  let segmentAngle := tau / (numSides : ℝ)
  let innerRadius := reduceMaxD
    ((List.range numSides).map
      (fun i : ℕ => outerRadAt (rotation + segmentAngle / 2 + (i : ℝ) * segmentAngle)))
  let outerRadius := innerRadius / Real.cos (segmentAngle / 2)
  new numSides outerRadius rotation

/-- The vertex list of a regular polygon, modelling the
`RegularPolygonVertices` iterator: vertex `i` is at angle
`i * TAU / num_sides` and radius `outer_radius`.  Neither the stored
`rotation` nor the stored `offset` is read. -/
noncomputable def verticesList (p : RegularPolygon) : List Vec2 :=
  (List.range p.numSides).map
    (fun i : ℕ =>
      Vec2.smul p.outerRadius (Vec2.dir ((i : ℝ) * (tau / (p.numSides : ℝ)))))

/-- `<RegularPolygon as ShapeMut>::translate`. -/
def translate (amount : Vec2) (p : RegularPolygon) : RegularPolygon :=
  ⟨p.numSides, p.outerRadius, p.rotation, p.offset.add amount⟩

/-- `<RegularPolygon as ShapeMut>::rotate`. -/
noncomputable def rotate (angle : ℝ) (p : RegularPolygon) : RegularPolygon :=
  ⟨p.numSides, p.outerRadius, p.rotation + angle, Vec2.rot (-angle) p.offset⟩

/-- `<RegularPolygon as ShapeMut>::scale`. -/
def scale (factor : ℝ) (p : RegularPolygon) : RegularPolygon :=
  ⟨p.numSides, p.outerRadius * factor, p.rotation, Vec2.smul factor p.offset⟩

end RegularPolygon

/-!
The closed set of kernel shape kinds that occur in layout-node boundaries,
modelling the `Box<dyn OuterShape>` erasure used by `layout.rs`.
-/

/-- A heterogeneous kernel shape, as stored in erased boundary collections. -/
inductive Shape where
  | line (l : Line)
  | circle (c : Circle)
  | rect (r : Rect)
  | poly (p : RegularPolygon)

namespace Shape

/-- Dispatch of `outer_coords_range` over the shape kinds (polygons go
through the generic vertex-list derivation). -/
noncomputable def outerCoordsRange : Shape → (ℝ × ℝ) × (ℝ × ℝ)
  | line l => l.outerCoordsRange
  | circle c => c.outerCoordsRange
  | rect r => outerCoordsRangeOf r.verticesList
  | poly p => outerCoordsRangeOf p.verticesList

/-- Dispatch of `outer_radius` over the shape kinds. -/
noncomputable def outerRadius : Shape → ℝ
  | line l => l.outerRadius
  | circle c => c.outerRadius
  | rect r => outerRadiusOf r.verticesList
  | poly p => outerRadiusOf p.verticesList

/-- Dispatch of `outer_radius_at` over the shape kinds. -/
noncomputable def outerRadiusAt : Shape → ℝ → ℝ
  | line l, angle => l.outerRadiusAt angle
  | circle c, angle => c.outerRadiusAt angle
  | rect r, angle => outerRadiusAtOf r.verticesList angle
  | poly p, angle => outerRadiusAtOf p.verticesList angle

/-- Dispatch of `translate` over the shape kinds. -/
def translate (amount : Vec2) : Shape → Shape
  | line l => line (l.translate amount)
  | circle c => circle (c.translate amount)
  | rect r => rect (r.translate amount)
  | poly p => poly (p.translate amount)

/-- Dispatch of `rotate` over the shape kinds. -/
noncomputable def rotate (angle : ℝ) : Shape → Shape
  | line l => line (l.rotate angle)
  | circle c => circle (c.rotate angle)
  | rect r => rect (r.rotate angle)
  | poly p => poly (p.rotate angle)

/-- Dispatch of `scale` over the shape kinds. -/
def scale (factor : ℝ) : Shape → Shape
  | line l => line (l.scale factor)
  | circle c => circle (c.scale factor)
  | rect r => rect (r.scale factor)
  | poly p => poly (p.scale factor)

end Shape

/-!
`impl<S: OuterShape> OuterShape for Vec<S>`: the collection queries fold the
member queries, starting from `0.0..0.0` ranges and from `0.0` radii.
-/

/-- One step of the `Vec<S>` `outer_coords_range` loop: merge a member's
range pair into the accumulator. -/
def vecRangeStep (acc r : (ℝ × ℝ) × (ℝ × ℝ)) : (ℝ × ℝ) × (ℝ × ℝ) :=
  ((min acc.1.1 r.1.1, max acc.1.2 r.1.2), (min acc.2.1 r.2.1, max acc.2.2 r.2.2))

/-- `<Vec<S> as OuterShape>::outer_coords_range`. -/
noncomputable def listOuterCoordsRange (shapes : List Shape) : (ℝ × ℝ) × (ℝ × ℝ) :=
  shapes.foldl (fun acc s => vecRangeStep acc s.outerCoordsRange) ((0, 0), (0, 0))

/-- `<Vec<S> as OuterShape>::outer_radius`. -/
noncomputable def listOuterRadius (shapes : List Shape) : ℝ :=
  shapes.foldl (fun acc s => max acc s.outerRadius) 0

/-- `<Vec<S> as OuterShape>::outer_radius_at`. -/
noncomputable def listOuterRadiusAt (shapes : List Shape) (angle : ℝ) : ℝ :=
  shapes.foldl (fun acc s => max acc (s.outerRadiusAt angle)) 0

/-!  Generic facts about the max/min folds used by the derived queries.  -/

theorem le_foldl_max {α : Type} (g : α → ℝ) (l : List α) (init : ℝ) :
    init ≤ l.foldl (fun acc v => max acc (g v)) init := by
  induction l generalizing init with
  | nil => simp
  | cons v vs ih => exact le_trans (le_max_left _ _) (ih (max init (g v)))

theorem mem_le_foldl_max {α : Type} (g : α → ℝ) {l : List α} {a : α}
    (h : a ∈ l) (init : ℝ) :
    g a ≤ l.foldl (fun acc v => max acc (g v)) init := by
  induction l generalizing init with
  | nil => cases h
  | cons v vs ih =>
    rcases List.mem_cons.mp h with h₁ | h₂
    · subst h₁
      exact le_trans (le_max_right _ _) (le_foldl_max g vs (max init (g a)))
    · exact ih h₂ (max init (g v))

theorem coordsRange_fold_bounds (vs : List Vec2) (init : (ℝ × ℝ) × (ℝ × ℝ)) :
    (vs.foldl coordsRangeStep init).1.1 ≤ init.1.1 ∧
    init.1.2 ≤ (vs.foldl coordsRangeStep init).1.2 ∧
    (vs.foldl coordsRangeStep init).2.1 ≤ init.2.1 ∧
    init.2.2 ≤ (vs.foldl coordsRangeStep init).2.2 := by
  induction vs generalizing init with
  | nil => simp
  | cons v vs ih =>
    have h := ih (coordsRangeStep init v)
    simp only [List.foldl_cons]
    exact ⟨le_trans h.1 (min_le_left _ _),
      le_trans (le_max_left _ _) h.2.1,
      le_trans h.2.2.1 (min_le_left _ _),
      le_trans (le_max_left _ _) h.2.2.2⟩

theorem vecRange_fold_bounds {α : Type} (g : α → (ℝ × ℝ) × (ℝ × ℝ))
    (l : List α) (init : (ℝ × ℝ) × (ℝ × ℝ)) :
    (l.foldl (fun acc x => vecRangeStep acc (g x)) init).1.1 ≤ init.1.1 ∧
    init.1.2 ≤ (l.foldl (fun acc x => vecRangeStep acc (g x)) init).1.2 ∧
    (l.foldl (fun acc x => vecRangeStep acc (g x)) init).2.1 ≤ init.2.1 ∧
    init.2.2 ≤ (l.foldl (fun acc x => vecRangeStep acc (g x)) init).2.2 := by
  induction l generalizing init with
  | nil => simp
  | cons x xs ih =>
    have h := ih (vecRangeStep init (g x))
    simp only [List.foldl_cons]
    exact ⟨le_trans h.1 (min_le_left _ _),
      le_trans (le_max_left _ _) h.2.1,
      le_trans h.2.2.1 (min_le_left _ _),
      le_trans (le_max_left _ _) h.2.2.2⟩

theorem foldl_max_le {α : Type} (g : α → ℝ) (l : List α) (init c : ℝ)
    (h0 : init ≤ c) (h : ∀ a ∈ l, g a ≤ c) :
    l.foldl (fun acc v => max acc (g v)) init ≤ c := by
  induction l generalizing init with
  | nil => simpa using h0
  | cons v vs ih =>
    simp only [List.foldl_cons]
    exact ih (max init (g v))
      (max_le h0 (h v (List.mem_cons_self v vs)))
      (fun a ha => h a (List.mem_cons_of_mem v ha))

theorem magSq_smul_dir (R a : ℝ) : (Vec2.smul R (Vec2.dir a)).magSq = R ^ 2 := by
  simp only [Vec2.smul, Vec2.dir, Vec2.magSq]
  linear_combination R ^ 2 * Real.sin_sq_add_cos_sq a

/-- The derived circumradius query of a regular polygon with at least one
side evaluates to the absolute value of its stored radius field: every
generated vertex has squared magnitude `outer_radius²`. -/
theorem regpoly_outerRadiusOf (p : RegularPolygon) (h : p.numSides ≠ 0) :
    outerRadiusOf p.verticesList = |p.outerRadius| := by
  unfold outerRadiusOf
  have hval :
      p.verticesList.foldl (fun acc v => max acc v.magSq) 0 = p.outerRadius ^ 2 := by
    apply le_antisymm
    · apply foldl_max_le Vec2.magSq
      · positivity
      · intro v hv
        simp only [RegularPolygon.verticesList, List.mem_map] at hv
        obtain ⟨i, _, rfl⟩ := hv
        exact le_of_eq (magSq_smul_dir _ _)
    · have hv0 : Vec2.smul p.outerRadius (Vec2.dir ((0 : ℕ) * (tau / p.numSides))) ∈
          p.verticesList := by
        simp only [RegularPolygon.verticesList, List.mem_map]
        exact ⟨0, List.mem_range.mpr (Nat.pos_of_ne_zero h), rfl⟩
      have := mem_le_foldl_max Vec2.magSq hv0 0
      rwa [magSq_smul_dir] at this
  rw [hval, Real.sqrt_sq_eq_abs]

/-- C9: for every `RegularPolygon`, `rotate` and `translate` leave the
generated vertex list, and with it every derived outer and inner query,
completely unchanged — the vertex generator reads only the side count and
the circumradius; `scale` by contrast maps every vertex by the scale
factor. -/
theorem regpoly_rotate_translate_leave_queries (p : RegularPolygon)
    (θ φ f : ℝ) (d : Vec2) :
    (p.rotate θ).verticesList = p.verticesList ∧
    (p.translate d).verticesList = p.verticesList ∧
    outerCoordsRangeOf (p.rotate θ).verticesList = outerCoordsRangeOf p.verticesList ∧
    outerRadiusOf (p.rotate θ).verticesList = outerRadiusOf p.verticesList ∧
    outerRadiusAtOf (p.rotate θ).verticesList φ = outerRadiusAtOf p.verticesList φ ∧
    innerCoordsRangeOf (p.rotate θ).verticesList = innerCoordsRangeOf p.verticesList ∧
    innerRadiusSqOf (p.rotate θ).verticesList = innerRadiusSqOf p.verticesList ∧
    innerRadiusAtOf (p.rotate θ).verticesList φ = innerRadiusAtOf p.verticesList φ ∧
    outerCoordsRangeOf (p.translate d).verticesList = outerCoordsRangeOf p.verticesList ∧
    outerRadiusOf (p.translate d).verticesList = outerRadiusOf p.verticesList ∧
    outerRadiusAtOf (p.translate d).verticesList φ = outerRadiusAtOf p.verticesList φ ∧
    innerCoordsRangeOf (p.translate d).verticesList = innerCoordsRangeOf p.verticesList ∧
    innerRadiusSqOf (p.translate d).verticesList = innerRadiusSqOf p.verticesList ∧
    innerRadiusAtOf (p.translate d).verticesList φ = innerRadiusAtOf p.verticesList φ ∧
    (p.scale f).verticesList = p.verticesList.map (Vec2.smul f) := by
  have h1 : (p.rotate θ).verticesList = p.verticesList := rfl
  have h2 : (p.translate d).verticesList = p.verticesList := rfl
  have h3 : (p.scale f).verticesList = p.verticesList.map (Vec2.smul f) := by
    simp only [RegularPolygon.verticesList, RegularPolygon.scale, List.map_map]
    refine congrArg (fun g => List.map g (List.range p.numSides)) (funext fun i => ?_)
    simp only [Function.comp_apply, Vec2.smul]
    exact congrArg₂ Vec2.mk (by ring) (by ring)
  exact ⟨h1, h2, by rw [h1], by rw [h1], by rw [h1], by rw [h1], by rw [h1],
    by rw [h1], by rw [h2], by rw [h2], by rw [h2], by rw [h2], by rw [h2],
    by rw [h2], h3⟩

/-!
The `Pentagram` layout node's sizing constants and boundary construction
(`Pentagram::construct` in `layout.rs`).  The child enters the boundary
computation only through its `outer_radius_at` support function, which is
the only query `RegularPolygon::wrap` performs on it.
-/

/-- `Pentagram::INNER_ROTATION`. -/
noncomputable def pentagramInnerRotation : ℝ := 0.25 * tau

/-- `Pentagram::OUTER_ROTATION`. -/
noncomputable def pentagramOuterRotation : ℝ := -0.25 * tau

/-- `Pentagram::INNER_OUTER_RADIUS_RATIO` (the constant `2.618033988749895`,
a blank separates the dot from the upper-case field name in the source). -/
def pentagramInnerOuterFactor : ℝ := 2.618033988749895

/-- The boundary polygon computed by `Pentagram::construct`: wrap the child
support in a pentagon at the inner rotation, then build a pentagon whose
stored circumradius is the fixed factor times the inner pentagon's derived
circumradius query, at the outer rotation. -/
noncomputable def pentagramBoundary (childSupport : ℝ → ℝ) : RegularPolygon :=
  let innerPentagon := RegularPolygon.wrap childSupport 5 pentagramInnerRotation
  RegularPolygon.new 5
    (pentagramInnerOuterFactor * outerRadiusOf innerPentagon.verticesList)
    pentagramOuterRotation

/-- C4 counterexample: the outer rotation of a constructed Pentagram
boundary is offset from the inner rotation by `-π` (a half turn), not by a
quarter turn in either direction. -/
theorem pentagram_rotation_not_quarter_turn :
    (pentagramBoundary (fun _ => 0)).rotation - pentagramInnerRotation = -Real.pi ∧
    (pentagramBoundary (fun _ => 0)).rotation - pentagramInnerRotation ≠ tau / 4 ∧
    (pentagramBoundary (fun _ => 0)).rotation - pentagramInnerRotation ≠ -(tau / 4) := by
  have hrot : (pentagramBoundary (fun _ => 0)).rotation = pentagramOuterRotation := rfl
  rw [hrot]
  unfold pentagramOuterRotation pentagramInnerRotation tau
  refine ⟨by ring, fun h => ?_, fun h => ?_⟩
  · nlinarith [Real.pi_pos]
  · nlinarith [Real.pi_pos]

/-- C4 (amended): for every child support function, the Pentagram boundary
is a 5-gon whose derived circumradius equals the fixed factor `2.618…` times
the derived circumradius of the inner wrapping pentagon, and its rotation is
offset from the inner rotation by a half turn (inner `+90°`, outer `-90°`),
not by a quarter turn. -/
theorem pentagram_boundary_radius_factor (s : ℝ → ℝ) :
    (pentagramBoundary s).numSides = 5 ∧
    outerRadiusOf (pentagramBoundary s).verticesList =
      pentagramInnerOuterFactor *
        outerRadiusOf (RegularPolygon.wrap s 5 pentagramInnerRotation).verticesList ∧
    (pentagramBoundary s).rotation = pentagramInnerRotation - Real.pi := by
  refine ⟨rfl, ?_, ?_⟩
  · have h := regpoly_outerRadiusOf (pentagramBoundary s) (by norm_num [pentagramBoundary, RegularPolygon.new])
    rw [h]
    have hr : (pentagramBoundary s).outerRadius =
        pentagramInnerOuterFactor *
          outerRadiusOf (RegularPolygon.wrap s 5 pentagramInnerRotation).verticesList := rfl
    rw [hr, abs_of_nonneg]
    apply mul_nonneg
    · norm_num [pentagramInnerOuterFactor]
    · exact Real.sqrt_nonneg _
  · have hrot : (pentagramBoundary s).rotation = pentagramOuterRotation := rfl
    rw [hrot]
    unfold pentagramOuterRotation pentagramInnerRotation tau
    ring

theorem mem_le_reduceMaxD {a : ℝ} {l : List ℝ} (h : a ∈ l) :
    a ≤ RegularPolygon.reduceMaxD l := by
  cases l with
  | nil => cases h
  | cons v vs =>
    rcases List.mem_cons.mp h with rfl | h2
    · exact le_foldl_max id vs a
    · exact mem_le_foldl_max id h2 v

/-- For every direction `θ` there is a vertex index `j < n` of the regular
`n`-gon (vertices at angles `j * 2π/n`) whose angle is within half a segment
angle of `θ`, so the cosine of the angular distance is at least
`cos(π/n)`. -/
theorem exists_vertex_near (n : ℕ) (hn : 1 ≤ n) (θ : ℝ) :
    ∃ j : ℕ, j < n ∧
      Real.cos (tau / n / 2) ≤ Real.cos (θ - j * (tau / n)) := by
  have hnR : (0 : ℝ) < n := by exact_mod_cast Nat.lt_of_lt_of_le Nat.zero_lt_one hn
  set σ : ℝ := tau / n with hσdef
  have hσpos : 0 < σ := by
    rw [hσdef]; unfold tau; positivity
  set k : ℤ := round (θ / σ) with hkdef
  have hk : |θ / σ - k| ≤ 1 / 2 := abs_sub_round (θ / σ)
  have hθk : |θ - k * σ| ≤ σ / 2 := by
    have h1 : θ - k * σ = σ * (θ / σ - k) := by
      field_simp
      ring
    rw [h1, abs_mul, abs_of_pos hσpos]
    nlinarith [abs_nonneg (θ / σ - (k : ℝ))]
  have hnzZ : (n : ℤ) ≠ 0 := by
    exact_mod_cast Nat.one_le_iff_ne_zero.mp hn
  set j : ℕ := (k % (n : ℤ)).toNat with hjdef
  have hjnn : 0 ≤ k % (n : ℤ) := Int.emod_nonneg k hnzZ
  have hjZ : (j : ℤ) = k % (n : ℤ) := Int.toNat_of_nonneg hjnn
  have hjn : j < n := by
    have hlt : k % (n : ℤ) < (n : ℤ) :=
      Int.emod_lt_of_pos k (by exact_mod_cast Nat.lt_of_lt_of_le Nat.zero_lt_one hn)
    omega
  have hdiv : k - (j : ℤ) = (n : ℤ) * (k / (n : ℤ)) := by
    rw [hjZ, Int.emod_def]; ring
  refine ⟨j, hjn, ?_⟩
  have hangle : θ - j * σ =
      (θ - k * σ) + ((k / (n : ℤ) : ℤ) : ℝ) * (2 * Real.pi) := by
    have hcast : (k : ℝ) - (j : ℝ) = (n : ℝ) * ((k / (n : ℤ) : ℤ) : ℝ) := by
      exact_mod_cast hdiv
    have h2 : ((k : ℝ) - j) * σ = ((k / (n : ℤ) : ℤ) : ℝ) * (2 * Real.pi) := by
      rw [hcast, hσdef]; unfold tau; field_simp; ring
    have h3 : θ - (j : ℝ) * σ = (θ - k * σ) + ((k : ℝ) - j) * σ := by ring
    rw [h3, h2]
  rw [hangle, Real.cos_add_int_mul_two_pi, ← Real.cos_abs (θ - k * σ)]
  apply Real.cos_le_cos_of_nonneg_of_le_pi (abs_nonneg _) ?_ hθk
  have hσ2 : σ / 2 = Real.pi / n := by
    rw [hσdef]; unfold tau; ring
  rw [hσ2]
  exact div_le_self Real.pi_pos.le (by exact_mod_cast hn)

/-- C1: for every wrapped shape (entering via its support function `s`),
every side count `n ≥ 3`, every rotation `r` and every face-bisector index
`i < n`, the regular `n`-gon produced by `RegularPolygon::wrap` has
`outer_radius_at` at the `i`-th face-bisector direction at least the wrapped
shape's `outer_radius_at` there: the sampled maximum inradius, divided by
`cos(π/n)` to give the circumradius, dominates every sample. -/
theorem wrap_ngon_contains_support (s : ℝ → ℝ) (n : ℕ) (hn : 3 ≤ n) (r : ℝ)
    (i : ℕ) (hi : i < n) :
    s (r + tau / n / 2 + i * (tau / n)) ≤
      outerRadiusAtOf (RegularPolygon.wrap s n r).verticesList
        (r + tau / n / 2 + i * (tau / n)) := by
  have hn1 : 1 ≤ n := le_trans (by norm_num) hn
  have hnR : (0 : ℝ) < n := by exact_mod_cast Nat.lt_of_lt_of_le Nat.zero_lt_one hn1
  set σ : ℝ := tau / n with hσdef
  set d : ℝ := r + σ / 2 + i * σ with hddef
  set M : ℝ := RegularPolygon.reduceMaxD
    ((List.range n).map (fun i : ℕ => s (r + σ / 2 + (i : ℝ) * σ))) with hMdef
  have hsd : s d ≤ M := by
    apply mem_le_reduceMaxD
    simp only [List.mem_map]
    exact ⟨i, List.mem_range.mpr hi, rfl⟩
  have hwrap : RegularPolygon.wrap s n r =
      RegularPolygon.new n (M / Real.cos (σ / 2)) r := rfl
  by_cases hMpos : 0 < M
  · have hσ2 : σ / 2 = Real.pi / n := by
      rw [hσdef]; unfold tau; ring
    have hcos : 0 < Real.cos (σ / 2) := by
      rw [hσ2]
      apply Real.cos_pos_of_mem_Ioo
      constructor
      · have h1 : (0 : ℝ) < Real.pi / n := by positivity
        nlinarith [Real.pi_pos]
      · have h3 : (3 : ℝ) ≤ n := by exact_mod_cast hn
        rw [div_lt_div_iff hnR (by norm_num : (0 : ℝ) < 2)]
        nlinarith [Real.pi_pos]
    set R : ℝ := M / Real.cos (σ / 2) with hRdef
    have hR : 0 < R := div_pos hMpos hcos
    obtain ⟨j, hjn, hjcos⟩ := exists_vertex_near n hn1 d
    have hv : Vec2.smul R (Vec2.dir ((j : ℝ) * σ)) ∈
        (RegularPolygon.wrap s n r).verticesList := by
      rw [hwrap]
      simp only [RegularPolygon.verticesList, RegularPolygon.new, List.mem_map]
      exact ⟨j, List.mem_range.mpr hjn, rfl⟩
    have hdot : (Vec2.smul R (Vec2.dir ((j : ℝ) * σ))).dot (Vec2.dir d) =
        R * Real.cos (d - j * σ) := by
      simp only [Vec2.smul, Vec2.dir, Vec2.dot, Real.cos_sub]
      ring
    have hfold := mem_le_foldl_max (fun v : Vec2 => v.dot (Vec2.dir d)) hv 0
    have hRcos : M ≤ R * Real.cos (d - j * σ) := by
      have h1 : R * Real.cos (σ / 2) = M := div_mul_cancel₀ M hcos.ne'
      nlinarith [mul_le_mul_of_nonneg_left hjcos hR.le]
    calc s d ≤ M := hsd
      _ ≤ R * Real.cos (d - j * σ) := hRcos
      _ = (Vec2.smul R (Vec2.dir ((j : ℝ) * σ))).dot (Vec2.dir d) := hdot.symm
      _ ≤ outerRadiusAtOf (RegularPolygon.wrap s n r).verticesList d := hfold
  · have h0 : 0 ≤ outerRadiusAtOf (RegularPolygon.wrap s n r).verticesList d :=
      le_foldl_max (fun v : Vec2 => v.dot (Vec2.dir d)) _ 0
    linarith [hsd, not_lt.mp hMpos]

/-- Witness for C1 at the constant-zero support, `n = 3`, `r = 0`,
`i = 0`. -/
theorem wrap_ngon_contains_support_witness :
    (3 ≤ 3) ∧ (0 < 3) ∧
    (fun _ : ℝ => (0 : ℝ)) (0 + tau / 3 / 2 + (0 : ℕ) * (tau / 3)) ≤
      outerRadiusAtOf (RegularPolygon.wrap (fun _ : ℝ => (0 : ℝ)) 3 0).verticesList
        (0 + tau / 3 / 2 + (0 : ℕ) * (tau / 3)) :=
  ⟨by norm_num, by norm_num,
    wrap_ngon_contains_support (fun _ => 0) 3 (by norm_num) 0 0 (by norm_num)⟩

/-- A side foot with a non-zero dot product against some direction is a
non-zero vector, so its squared magnitude is positive. -/
theorem magSq_pos_of_dot_ne_zero {s n : Vec2} (h : s.dot n ≠ 0) : 0 < s.magSq := by
  rcases lt_or_eq_of_le (Vec2.magSq_nonneg s) with hlt | heq
  · exact hlt
  · exfalso
    have heq2 : s.x * s.x + s.y * s.y = 0 := by
      simpa [Vec2.magSq] using heq.symm
    have hx : s.x = 0 :=
      mul_self_eq_zero.mp (by nlinarith [mul_self_nonneg s.x, mul_self_nonneg s.y])
    have hy : s.y = 0 :=
      mul_self_eq_zero.mp (by nlinarith [mul_self_nonneg s.x, mul_self_nonneg s.y])
    apply h
    simp [Vec2.dot, hx, hy]

/-- So long as no side foot is exactly perpendicular to the ray direction,
filtering the quotients `|s|²/(s·n)` on non-negativity keeps exactly the
sides whose denominator `s·n` is positive. -/
theorem filter_quotients_eq_filter_positive_dot (n : Vec2) (l : List Vec2)
    (h : ∀ s ∈ l, s.dot n ≠ 0) :
    ((l.map (fun s => s.magSq / s.dot n)).filter
        (fun d => decide ((0 : ℝ) ≤ d))).map (fun d => ((d : ℝ) : EReal)) =
      (l.filter (fun s => decide ((0 : ℝ) < s.dot n))).map
        (fun s => ((s.magSq / s.dot n : ℝ) : EReal)) := by
  induction l with
  | nil => simp
  | cons s t ih =>
    have hs := h s (List.mem_cons_self s t)
    have ht : ∀ a ∈ t, a.dot n ≠ 0 := fun a ha => h a (List.mem_cons_of_mem s ha)
    by_cases hd : 0 < s.dot n
    · have hq : (0 : ℝ) ≤ s.magSq / s.dot n :=
        div_nonneg (Vec2.magSq_nonneg s) hd.le
      simp only [List.map_cons, List.filter_cons, decide_eq_true_eq, hq, hd,
        if_true, List.map_cons, ih ht]
    · have hd2 : s.dot n < 0 := lt_of_le_of_ne (not_lt.mp hd) hs
      have hq : s.magSq / s.dot n < 0 :=
        div_neg_of_pos_of_neg (magSq_pos_of_dot_ne_zero hs) hd2
      simp only [List.map_cons, List.filter_cons, decide_eq_true_eq,
        not_le.mpr hq, hd, if_false, ih ht]

/-- Modelled from the spec sentence for comparison with the source
definition: the directional inner radius as the minimum, over exactly those
side feet whose dot product with the ray direction is positive, of the
quotient `|s|²/(s·n)` (the distance from the origin to the point where the
ray crosses that side's supporting line), and `⊤` when no side qualifies. -/
noncomputable def specInnerRadiusAt (vs : List Vec2) (angle : ℝ) : EReal :=
  (((sidesOf vs).filter (fun s => decide ((0 : ℝ) < s.dot (Vec2.dir angle)))).map
    (fun s => ((s.magSq / s.dot (Vec2.dir angle) : ℝ) : EReal))).foldl min ⊤

/-- C5: for every vertex list and every angle at which no side foot is
exactly perpendicular to the ray (the one configuration where real division
diverges from the IEEE evaluation the source performs), the generic
`inner_radius_at` equals the minimum over exactly the sides with positive
denominator of the origin-to-crossing distance, edges with non-positive
denominator being excluded, and is `⊤` (`+∞`) when no side qualifies. -/
theorem inner_radius_at_min_over_crossed_edges (vs : List Vec2) (angle : ℝ)
    (h : ∀ s ∈ sidesOf vs, s.dot (Vec2.dir angle) ≠ 0) :
    innerRadiusAtOf vs angle = specInnerRadiusAt vs angle := by
  unfold innerRadiusAtOf specInnerRadiusAt
  rw [filter_quotients_eq_filter_positive_dot (Vec2.dir angle) (sidesOf vs) h]

/-- Witness for C5 at the concrete triangle with vertices `(1,0)`, `(0,1)`,
`(-1,-1)` and the ray at angle `0`. -/
theorem inner_radius_at_witness :
    (∀ s ∈ sidesOf [⟨1, 0⟩, ⟨0, 1⟩, ⟨-1, -1⟩], s.dot (Vec2.dir 0) ≠ 0) ∧
    innerRadiusAtOf [⟨1, 0⟩, ⟨0, 1⟩, ⟨-1, -1⟩] 0 =
      specInnerRadiusAt [⟨1, 0⟩, ⟨0, 1⟩, ⟨-1, -1⟩] 0 := by
  have h : ∀ s ∈ sidesOf [⟨1, 0⟩, ⟨0, 1⟩, ⟨-1, -1⟩], s.dot (Vec2.dir 0) ≠ 0 := by
    intro s hs
    simp only [sidesOf, List.zip_cons_cons, List.map_cons, List.mem_cons,
      List.cons_append, List.nil_append, List.zip_nil_right, List.map_nil,
      List.not_mem_nil, or_false, vectorToLine, Vec2.sub, Vec2.add, Vec2.smul,
      Vec2.magSq, Vec2.dot] at hs
    rcases hs with rfl | rfl | rfl <;>
      norm_num [Vec2.dot, Vec2.dir, Real.cos_zero, Real.sin_zero]
  exact ⟨h, inner_radius_at_min_over_crossed_edges _ _ h⟩

/-- C7: for every `Circle` and every `RegularPolygon` and every translation
vector, `translate` by the vector followed by `translate` by its negation
restores the original shape value exactly (hence every outer-boundary query,
being a function of that value, returns its original result). -/
theorem translate_roundtrip_exact (c : Circle) (p : RegularPolygon) (d : Vec2) :
    Circle.translate d.neg (Circle.translate d c) = c ∧
    RegularPolygon.translate d.neg (RegularPolygon.translate d p) = p := by
  constructor
  · cases c; simp [Circle.translate, Vec2.add_neg_add]
  · cases p; simp [RegularPolygon.translate, Vec2.add_neg_add]

/-- C8: evaluation of `Line::outer_coords_range` at the failing input
`start = (0,0)`, `end = (1,2)`: the code returns `(0, 0)` as the y range
(both bounds computed with `min`), whereas the min-to-max bounding box of
the endpoints' y coordinates would be `(0, 2)`. -/
theorem line_coords_range_y_bug :
    (Line.outerCoordsRange ⟨⟨0, 0⟩, ⟨1, 2⟩⟩).2 = ((0 : ℝ), (0 : ℝ)) ∧
    max (0 : ℝ) 2 = 2 ∧ (0 : ℝ) ≠ 2 := by
  refine ⟨?_, by norm_num, by norm_num⟩
  simp [Line.outerCoordsRange]

/-- C10: for every `Rect`, every `RegularPolygon` and every non-empty
collection of outer shapes, the `outer_coords_range` result contains `0` in
both the x and the y range, and `outer_radius_at` is non-negative at every
angle: the folds all start from `0`-based accumulators, so the reported
bounding geometry always includes the local origin. -/
theorem outer_bounds_contain_origin (r : Rect) (p : RegularPolygon)
    (shapes : List Shape) (_hne : shapes ≠ []) (angle : ℝ) :
    ((outerCoordsRangeOf r.verticesList).1.1 ≤ 0 ∧
      0 ≤ (outerCoordsRangeOf r.verticesList).1.2 ∧
      (outerCoordsRangeOf r.verticesList).2.1 ≤ 0 ∧
      0 ≤ (outerCoordsRangeOf r.verticesList).2.2) ∧
    ((outerCoordsRangeOf p.verticesList).1.1 ≤ 0 ∧
      0 ≤ (outerCoordsRangeOf p.verticesList).1.2 ∧
      (outerCoordsRangeOf p.verticesList).2.1 ≤ 0 ∧
      0 ≤ (outerCoordsRangeOf p.verticesList).2.2) ∧
    ((listOuterCoordsRange shapes).1.1 ≤ 0 ∧
      0 ≤ (listOuterCoordsRange shapes).1.2 ∧
      (listOuterCoordsRange shapes).2.1 ≤ 0 ∧
      0 ≤ (listOuterCoordsRange shapes).2.2) ∧
    0 ≤ outerRadiusAtOf r.verticesList angle ∧
    0 ≤ outerRadiusAtOf p.verticesList angle ∧
    0 ≤ listOuterRadiusAt shapes angle := by
  refine ⟨coordsRange_fold_bounds _ _, coordsRange_fold_bounds _ _,
    vecRange_fold_bounds Shape.outerCoordsRange shapes ((0, 0), (0, 0)), ?_, ?_, ?_⟩
  · exact le_foldl_max (fun v : Vec2 => v.dot (Vec2.dir angle)) _ 0
  · exact le_foldl_max (fun v : Vec2 => v.dot (Vec2.dir angle)) _ 0
  · exact le_foldl_max (fun s => s.outerRadiusAt angle) shapes 0

/-- Witness for C10 at a concrete rectangle, pentagon, singleton collection
and angle. -/
theorem outer_bounds_contain_origin_witness :
    ([Shape.circle ⟨1, ⟨0, 0⟩⟩] ≠ ([] : List Shape)) ∧
    (0 ≤ listOuterRadiusAt [Shape.circle ⟨1, ⟨0, 0⟩⟩] 0) := by
  refine ⟨by simp, ?_⟩
  exact (outer_bounds_contain_origin ⟨1, 1, ⟨0, 0⟩, 0⟩ ⟨5, 1, 0, ⟨0, 0⟩⟩
    [Shape.circle ⟨1, ⟨0, 0⟩⟩] (by simp) 0).2.2.2.2.2

/-!
The layout-node tree of `layout.rs`: a closed tagged union over the node
kinds of the `Node` enum, each node owning its boundary geometry and its
children.  Only the geometric payload is modelled; text strings, stroke and
pattern tags play no part in any geometric claim.
-/

/-- A layout node, modelling the `Node` enum of `layout.rs` together with
the per-kind payload structs. -/
inductive Node where
  | symbol (boundary : List Rect)
  | phrase (boundary : List Rect)
  | pentagram (boundary : RegularPolygon) (child : Node)
  | circle (boundary : Circle) (rim : List Node) (content : Node)
  | regularPolygon (sides : ℕ) (boundary : RegularPolygon) (child : Node)
  | link (segments : List Line) (items : List Node)
  | arrangement (items : List Node)

mutual

/-- `LayoutNode::translate`, dispatched over the node kinds exactly as the
per-kind impls in `layout.rs` do: every kind forwards the translation to its
boundary and to all of its children. -/
def nodeTranslate (d : Vec2) : Node → Node
  | .symbol rs => .symbol (rs.map (Rect.translate d))
  | .phrase rs => .phrase (rs.map (Rect.translate d))
  | .pentagram b c => .pentagram (b.translate d) (nodeTranslate d c)
  | .circle b rim content =>
      .circle (b.translate d) (nodeListTranslate d rim) (nodeTranslate d content)
  | .regularPolygon s b c => .regularPolygon s (b.translate d) (nodeTranslate d c)
  | .link segs items => .link (segs.map (Line.translate d)) (nodeListTranslate d items)
  | .arrangement items => .arrangement (nodeListTranslate d items)

/-- Translation of a node list (`impl LayoutNode for Vec<Node>`). -/
def nodeListTranslate (d : Vec2) : List Node → List Node
  | [] => []
  | n :: ns => nodeTranslate d n :: nodeListTranslate d ns

end

mutual

/-- `LayoutNode::rotate`, dispatched over the node kinds: every kind
forwards the rotation to its boundary and to all of its children. -/
noncomputable def nodeRotate (angle : ℝ) : Node → Node
  | .symbol rs => .symbol (rs.map (Rect.rotate angle))
  | .phrase rs => .phrase (rs.map (Rect.rotate angle))
  | .pentagram b c => .pentagram (b.rotate angle) (nodeRotate angle c)
  | .circle b rim content =>
      .circle (b.rotate angle) (nodeListRotate angle rim) (nodeRotate angle content)
  | .regularPolygon s b c => .regularPolygon s (b.rotate angle) (nodeRotate angle c)
  | .link segs items =>
      .link (segs.map (Line.rotate angle)) (nodeListRotate angle items)
  | .arrangement items => .arrangement (nodeListRotate angle items)

/-- Rotation of a node list (`impl LayoutNode for Vec<Node>`). -/
noncomputable def nodeListRotate (angle : ℝ) : List Node → List Node
  | [] => []
  | n :: ns => nodeRotate angle n :: nodeListRotate angle ns

end

mutual

/-- `LayoutNode::scale`, dispatched over the node kinds exactly as written
in `layout.rs`: note that the `Pentagram` impl scales only its own boundary
(never the child) and the `Circle` impl scales its boundary and rim but not
its content child; every other kind forwards the factor to all children. -/
def nodeScale (f : ℝ) : Node → Node
  | .symbol rs => .symbol (rs.map (Rect.scale f))
  | .phrase rs => .phrase (rs.map (Rect.scale f))
  | .pentagram b c => .pentagram (b.scale f) c
  | .circle b rim content => .circle (b.scale f) (nodeListScale f rim) content
  | .regularPolygon s b c => .regularPolygon s (b.scale f) (nodeScale f c)
  | .link segs items => .link (segs.map (Line.scale f)) (nodeListScale f items)
  | .arrangement items => .arrangement (nodeListScale f items)

/-- Scaling of a node list (`impl LayoutNode for Vec<Node>`). -/
def nodeListScale (f : ℝ) : List Node → List Node
  | [] => []
  | n :: ns => nodeScale f n :: nodeListScale f ns

end

mutual

/-- `LayoutNode::boundary`, flattened into one shape list: a `Symbol` or
`Phrase` exposes its text rectangles, a `Pentagram` or `RegularPolygon` node
exposes only its own polygon, a `Circle` node exposes its own circle plus
the boundaries of its rim children (not its content), a `Link` exposes its
segments plus its items' boundaries, and an `Arrangement` exposes its
children's boundaries.  Flattening the nested `Vec<Box<dyn OuterShape>>`
into one list is sound for the collection queries because those fold from
`0`-based accumulators at every nesting level. -/
def nodeBoundary : Node → List Shape
  | .symbol rs => rs.map Shape.rect
  | .phrase rs => rs.map Shape.rect
  | .pentagram b _ => [Shape.poly b]
  | .circle b rim _ => Shape.circle b :: nodeListBoundary rim
  | .regularPolygon _ b _ => [Shape.poly b]
  | .link segs items => segs.map Shape.line ++ nodeListBoundary items
  | .arrangement items => nodeListBoundary items

/-- The flattened boundary of a node list. -/
def nodeListBoundary : List Node → List Shape
  | [] => []
  | n :: ns => nodeBoundary n ++ nodeListBoundary ns

end

mutual

/-- The boundary shapes of a node and of every node in its owned subtree
(its own boundary plus, recursively, all descendants'). -/
def allBoundaries : Node → List Shape
  | .symbol rs => rs.map Shape.rect
  | .phrase rs => rs.map Shape.rect
  | .pentagram b c => Shape.poly b :: allBoundaries c
  | .circle b rim content =>
      Shape.circle b :: (allBoundariesList rim ++ allBoundaries content)
  | .regularPolygon _ b c => Shape.poly b :: allBoundaries c
  | .link segs items => segs.map Shape.line ++ allBoundariesList items
  | .arrangement items => allBoundariesList items

/-- The subtree boundary shapes of a node list. -/
def allBoundariesList : List Node → List Shape
  | [] => []
  | n :: ns => allBoundaries n ++ allBoundariesList ns

end

mutual

theorem allBoundaries_translate (d : Vec2) : (n : Node) →
    allBoundaries (nodeTranslate d n) = (allBoundaries n).map (Shape.translate d)
  | .symbol rs => by
      simp only [nodeTranslate, allBoundaries, List.map_map]; rfl
  | .phrase rs => by
      simp only [nodeTranslate, allBoundaries, List.map_map]; rfl
  | .pentagram b c => by
      simp only [nodeTranslate, allBoundaries, List.map_cons,
        allBoundaries_translate d c]; rfl
  | .circle b rim content => by
      simp only [nodeTranslate, allBoundaries, List.map_cons, List.map_append,
        allBoundaries_translate d content, allBoundariesList_translate d rim]; rfl
  | .regularPolygon s b c => by
      simp only [nodeTranslate, allBoundaries, List.map_cons,
        allBoundaries_translate d c]; rfl
  | .link segs items => by
      simp only [nodeTranslate, allBoundaries, List.map_append, List.map_map,
        allBoundariesList_translate d items]; rfl
  | .arrangement items => by
      simp only [nodeTranslate, allBoundaries, allBoundariesList_translate d items]

theorem allBoundariesList_translate (d : Vec2) : (l : List Node) →
    allBoundariesList (nodeListTranslate d l) =
      (allBoundariesList l).map (Shape.translate d)
  | [] => rfl
  | n :: ns => by
      simp only [nodeListTranslate, allBoundariesList, List.map_append,
        allBoundaries_translate d n, allBoundariesList_translate d ns]

end

mutual

theorem allBoundaries_rotate (angle : ℝ) : (n : Node) →
    allBoundaries (nodeRotate angle n) = (allBoundaries n).map (Shape.rotate angle)
  | .symbol rs => by
      simp only [nodeRotate, allBoundaries, List.map_map]; rfl
  | .phrase rs => by
      simp only [nodeRotate, allBoundaries, List.map_map]; rfl
  | .pentagram b c => by
      simp only [nodeRotate, allBoundaries, List.map_cons,
        allBoundaries_rotate angle c]; rfl
  | .circle b rim content => by
      simp only [nodeRotate, allBoundaries, List.map_cons, List.map_append,
        allBoundaries_rotate angle content, allBoundariesList_rotate angle rim]; rfl
  | .regularPolygon s b c => by
      simp only [nodeRotate, allBoundaries, List.map_cons,
        allBoundaries_rotate angle c]; rfl
  | .link segs items => by
      simp only [nodeRotate, allBoundaries, List.map_append, List.map_map,
        allBoundariesList_rotate angle items]; rfl
  | .arrangement items => by
      simp only [nodeRotate, allBoundaries, allBoundariesList_rotate angle items]

theorem allBoundariesList_rotate (angle : ℝ) : (l : List Node) →
    allBoundariesList (nodeListRotate angle l) =
      (allBoundariesList l).map (Shape.rotate angle)
  | [] => rfl
  | n :: ns => by
      simp only [nodeListRotate, allBoundariesList, List.map_append,
        allBoundaries_rotate angle n, allBoundariesList_rotate angle ns]

end

mutual

/-- Scaling a node maps every shape of its *visible* boundary by the shape
scale: the child subtrees that `nodeScale` skips (a Pentagram's child, a
Circle's content) never contribute to `nodeBoundary` in the first place. -/
theorem nodeBoundary_scale (f : ℝ) : (n : Node) →
    nodeBoundary (nodeScale f n) = (nodeBoundary n).map (Shape.scale f)
  | .symbol rs => by
      simp only [nodeScale, nodeBoundary, List.map_map]; rfl
  | .phrase rs => by
      simp only [nodeScale, nodeBoundary, List.map_map]; rfl
  | .pentagram b c => by
      simp only [nodeScale, nodeBoundary, List.map_cons]; rfl
  | .circle b rim content => by
      simp only [nodeScale, nodeBoundary, List.map_cons,
        nodeListBoundary_scale f rim]; rfl
  | .regularPolygon s b c => by
      simp only [nodeScale, nodeBoundary, List.map_cons]; rfl
  | .link segs items => by
      simp only [nodeScale, nodeBoundary, List.map_append, List.map_map,
        nodeListBoundary_scale f items]; rfl
  | .arrangement items => by
      simp only [nodeScale, nodeBoundary, nodeListBoundary_scale f items]

theorem nodeListBoundary_scale (f : ℝ) : (l : List Node) →
    nodeListBoundary (nodeListScale f l) = (nodeListBoundary l).map (Shape.scale f)
  | [] => rfl
  | n :: ns => by
      simp only [nodeListScale, nodeListBoundary, List.map_append,
        nodeBoundary_scale f n, nodeListBoundary_scale f ns]

end

/-- A concrete Pentagram layout node: unit pentagon boundary over a `2 × 2`
text rectangle child. -/
def samplePentagram : Node :=
  .pentagram ⟨5, 1, 0, ⟨0, 0⟩⟩ (.symbol [⟨2, 2, ⟨0, 0⟩, 0⟩])

/-- C2 counterexample: scaling the sample Pentagram node by `2` does not
scale the whole owned subtree — the child rectangle keeps its original
size, so the subtree boundary list differs from the uniformly scaled
one. -/
theorem scale_not_recursive_counterexample :
    allBoundaries (nodeScale 2 samplePentagram) ≠
      (allBoundaries samplePentagram).map (Shape.scale 2) := by
  intro h
  simp only [samplePentagram, nodeScale, allBoundaries, List.map_cons,
    List.map_map, List.map_nil, Shape.scale, Rect.scale, List.cons.injEq,
    Function.comp_apply, Shape.rect.injEq, Rect.mk.injEq] at h
  have h2 : (2 : ℝ) = 2 * 2 := h.2.1.1
  norm_num at h2

/-- C2 (amended): `translate` and `rotate` do apply recursively to the whole
owned subtree — every boundary in the subtree is translated/rotated by the
node's amount — but `scale` does not: the `Pentagram` impl leaves its child
node untouched and the `Circle` impl leaves its content child untouched
(each scales only its own boundary, plus the rim list for `Circle`). -/
theorem affine_ops_subtree_recursion (n : Node) (d : Vec2) (θ f : ℝ)
    (b : RegularPolygon) (c : Node) (bc : Circle) (rim : List Node)
    (content : Node) :
    allBoundaries (nodeTranslate d n) = (allBoundaries n).map (Shape.translate d) ∧
    allBoundaries (nodeRotate θ n) = (allBoundaries n).map (Shape.rotate θ) ∧
    nodeScale f (.pentagram b c) = .pentagram (b.scale f) c ∧
    nodeScale f (.circle bc rim content) =
      .circle (bc.scale f) (nodeListScale f rim) content :=
  ⟨allBoundaries_translate d n, allBoundaries_rotate θ n, rfl, rfl⟩

/-!
`Circle::position_rim_items` from `layout.rs`, split into its loop-local
quantities.
-/

/-- `Circle::BASE_RIM_ROTATION`. -/
noncomputable def baseRimRotation : ℝ := tau * (-0.25)

/-- The placement orientation of rim item `i` of `numRim`:
`i * TAU / num_rim_items`. -/
noncomputable def rimOrientation (i numRim : ℕ) : ℝ := (i : ℝ) * tau / (numRim : ℝ)

/-- The placement angle of rim item `i`: its orientation plus the base rim
rotation. -/
noncomputable def rimAngle (i numRim : ℕ) : ℝ := rimOrientation i numRim + baseRimRotation

/-- The `inward_radius` loop-local: the rim item's own boundary support
queried at the angle pointing back toward the center
(`angle - 0.5 * TAU`). -/
noncomputable def rimInwardRadius (node : Node) (angle : ℝ) : ℝ :=
  listOuterRadiusAt (nodeBoundary node) (angle - 0.5 * tau)

/-- The `offset` loop-local:
`max(0, (mean_radius - inner_radius - inward_radius) - max_rim_overlap)`,
with `max_rim_overlap = circle_max_rim_overlap_ratio * inner_radius`. -/
noncomputable def rimOffset (overlapFrac mean inner : ℝ) (node : Node)
    (angle : ℝ) : ℝ :=
  max 0 ((mean - inner - rimInwardRadius node angle) - overlapFrac * inner)

/-- The `translation` loop-local applied to rim item `i`:
`(mean_radius + offset) * (cos angle, sin angle)`. -/
noncomputable def rimTranslation (overlapFrac mean inner : ℝ) (node : Node)
    (i numRim : ℕ) : Vec2 :=
  Vec2.smul (mean + rimOffset overlapFrac mean inner node (rimAngle i numRim))
    (Vec2.dir (rimAngle i numRim))

/-- The full `position_rim_items` loop: each rim item is rotated to its
orientation and then translated by its translation vector. -/
noncomputable def positionRimItems (overlapFrac mean inner : ℝ)
    (rim : List Node) : List Node :=
  rim.enum.map
    (fun p =>
      nodeTranslate (rimTranslation overlapFrac mean inner p.2 p.1 rim.length)
        (nodeRotate (rimOrientation p.1 rim.length) p.2))

theorem magSq_smul (f : ℝ) (v : Vec2) :
    (Vec2.smul f v).magSq = f ^ 2 * v.magSq := by
  simp only [Vec2.smul, Vec2.magSq]; ring

theorem mag_smul {f : ℝ} (hf : 0 ≤ f) (v : Vec2) :
    (Vec2.smul f v).mag = f * v.mag := by
  unfold Vec2.mag
  rw [magSq_smul, Real.sqrt_mul (sq_nonneg f), Real.sqrt_sq_eq_abs, abs_of_nonneg hf]

theorem mag_smul_dir (R a : ℝ) : (Vec2.smul R (Vec2.dir a)).mag = |R| := by
  unfold Vec2.mag
  rw [magSq_smul_dir, Real.sqrt_sq_eq_abs]

/-- C3 counterexample: for `overlap ratio = 0.2`, `mean = 10`, `inner = 5`
and a rim item with empty boundary (so its inward clearance is `0`), the
translation the code applies has magnitude `14`, while the claimed formula
`anchor + max(0, inward_clearance - max_allowed_overlap)` gives `10`. -/
theorem rim_translation_magnitude_counterexample :
    (rimTranslation 0.2 10 5 (.symbol []) 0 6).mag = 14 ∧
    10 + max 0 (rimInwardRadius (.symbol []) (rimAngle 0 6) - 0.2 * 5) = 10 ∧
    (14 : ℝ) ≠ 10 := by
  have hinward : rimInwardRadius (.symbol []) (rimAngle 0 6) = 0 := rfl
  refine ⟨?_, by rw [hinward]; norm_num, by norm_num⟩
  unfold rimTranslation
  rw [mag_smul_dir]
  rw [rimOffset, hinward]
  norm_num

/-- C3 (amended): the outward translation applied to rim item `i` has
magnitude `anchor_radius + max(0, (anchor_radius - inner_radius -
inward_clearance_needed) - max_allowed_overlap)` — the code subtracts the
inward clearance from the anchor-to-inner gap instead of comparing the
inward clearance itself against the allowed overlap as the claim states —
whenever that quantity is non-negative (the translation is
`(mean + offset) * (cos angle, sin angle)`, so its norm is the absolute
value of that factor). -/
theorem rim_translation_magnitude (overlapFrac mean inner : ℝ) (node : Node)
    (i numRim : ℕ)
    (h : 0 ≤ mean + rimOffset overlapFrac mean inner node (rimAngle i numRim)) :
    (rimTranslation overlapFrac mean inner node i numRim).mag =
      mean + max 0 ((mean - inner - rimInwardRadius node (rimAngle i numRim)) -
        overlapFrac * inner) := by
  unfold rimTranslation
  rw [mag_smul_dir, abs_of_nonneg h]
  rfl

/-- Witness for C3 (amended) at the counterexample's concrete inputs. -/
theorem rim_translation_magnitude_witness :
    0 ≤ 10 + rimOffset 0.2 10 5 (.symbol []) (rimAngle 0 6) ∧
    (rimTranslation 0.2 10 5 (.symbol []) 0 6).mag =
      10 + max 0 ((10 - 5 - rimInwardRadius (.symbol []) (rimAngle 0 6)) -
        0.2 * 5) := by
  have h : 0 ≤ 10 + rimOffset 0.2 10 5 (.symbol []) (rimAngle 0 6) := by
    have h0 : (0 : ℝ) ≤ rimOffset 0.2 10 5 (.symbol []) (rimAngle 0 6) :=
      le_max_left 0 _
    linarith
  exact ⟨h, rim_translation_magnitude 0.2 10 5 (.symbol []) 0 6 h⟩

/-!  Scaling by a non-negative factor multiplies every outer radius query.  -/

theorem dot_smul_left (f : ℝ) (v n : Vec2) :
    (Vec2.smul f v).dot n = f * v.dot n := by
  simp only [Vec2.smul, Vec2.dot]; ring

theorem rot_smul (θ f : ℝ) (v : Vec2) :
    Vec2.rot θ (Vec2.smul f v) = Vec2.smul f (Vec2.rot θ v) := by
  simp only [Vec2.rot, Vec2.smul]
  exact congrArg₂ Vec2.mk (by ring) (by ring)

theorem foldl_max_mul_nonneg {α : Type} (g : α → ℝ) (l : List α) {c : ℝ}
    (hc : 0 ≤ c) (init : ℝ) :
    l.foldl (fun acc v => max acc (c * g v)) (c * init) =
      c * l.foldl (fun acc v => max acc (g v)) init := by
  induction l generalizing init with
  | nil => simp
  | cons v vs ih =>
    simp only [List.foldl_cons]
    rw [← mul_max_of_nonneg _ _ hc, ih (max init (g v))]

theorem rect_verticesList_scale (f : ℝ) (r : Rect) :
    (Rect.scale f r).verticesList = r.verticesList.map (Vec2.smul f) := by
  simp only [Rect.verticesList, Rect.scale, List.map_cons, List.map_nil,
    Vec2.rot, Vec2.smul, Vec2.add, List.cons.injEq, Vec2.mk.injEq, and_true]
  exact ⟨⟨by ring, by ring⟩, ⟨by ring, by ring⟩, ⟨by ring, by ring⟩,
    by ring, by ring⟩

theorem regpoly_verticesList_scale (f : ℝ) (p : RegularPolygon) :
    (RegularPolygon.scale f p).verticesList = p.verticesList.map (Vec2.smul f) := by
  simp only [RegularPolygon.verticesList, RegularPolygon.scale, List.map_map]
  refine congrArg (fun g => List.map g (List.range p.numSides)) (funext fun i => ?_)
  simp only [Function.comp_apply, Vec2.smul]
  exact congrArg₂ Vec2.mk (by ring) (by ring)

theorem outerRadiusOf_map_smul {f : ℝ} (hf : 0 ≤ f) (vs : List Vec2) :
    outerRadiusOf (vs.map (Vec2.smul f)) = f * outerRadiusOf vs := by
  unfold outerRadiusOf
  rw [List.foldl_map]
  have hfun : (fun (acc : ℝ) (v : Vec2) => max acc (Vec2.smul f v).magSq) =
      (fun (acc : ℝ) (v : Vec2) => max acc (f ^ 2 * v.magSq)) := by
    funext acc v
    rw [magSq_smul]
  rw [hfun]
  have h0 : (0 : ℝ) = f ^ 2 * 0 := by ring
  rw [h0, foldl_max_mul_nonneg Vec2.magSq vs (sq_nonneg f) 0,
    Real.sqrt_mul (sq_nonneg f), Real.sqrt_sq_eq_abs, abs_of_nonneg hf]
  norm_num

theorem shape_outerRadius_scale {f : ℝ} (hf : 0 ≤ f) (sh : Shape) :
    (Shape.scale f sh).outerRadius = f * sh.outerRadius := by
  cases sh with
  | line l =>
    simp only [Shape.scale, Shape.outerRadius, Line.scale, Line.outerRadius,
      magSq_smul]
    rw [← mul_max_of_nonneg _ _ (sq_nonneg f), Real.sqrt_mul (sq_nonneg f),
      Real.sqrt_sq_eq_abs, abs_of_nonneg hf]
  | circle c =>
    simp only [Shape.scale, Shape.outerRadius, Circle.scale, Circle.outerRadius,
      mag_smul hf]
    ring
  | rect r =>
    simp only [Shape.scale, Shape.outerRadius]
    rw [rect_verticesList_scale, outerRadiusOf_map_smul hf]
  | poly p =>
    simp only [Shape.scale, Shape.outerRadius]
    rw [regpoly_verticesList_scale, outerRadiusOf_map_smul hf]

theorem listOuterRadius_map_scale {f : ℝ} (hf : 0 ≤ f) (l : List Shape) :
    listOuterRadius (l.map (Shape.scale f)) = f * listOuterRadius l := by
  unfold listOuterRadius
  rw [List.foldl_map]
  have hfun : (fun (acc : ℝ) (s : Shape) => max acc (Shape.scale f s).outerRadius) =
      (fun (acc : ℝ) (s : Shape) => max acc (f * s.outerRadius)) := by
    funext acc s
    rw [shape_outerRadius_scale hf]
  rw [hfun]
  have h0 : (0 : ℝ) = f * 0 := by ring
  rw [h0, foldl_max_mul_nonneg Shape.outerRadius l hf 0]
  norm_num

theorem nodeRadius_scale {f : ℝ} (hf : 0 ≤ f) (n : Node) :
    listOuterRadius (nodeBoundary (nodeScale f n)) =
      f * listOuterRadius (nodeBoundary n) := by
  rw [nodeBoundary_scale, listOuterRadius_map_scale hf]

/-!
The sizing steps of `Circle::construct` in `layout.rs`.
-/

/-- The `highest_rim_size` fold in `Circle::apply_content_constraints`. -/
noncomputable def highestRimSize (rim : List Node) : ℝ :=
  rim.foldl (fun acc n => max acc (listOuterRadius (nodeBoundary n))) 0

/-- `Circle::apply_content_constraints`: if the content's outer radius is
below `highest_rim_size / circle_max_rim_ratio`, scale the content up to
that minimum size. -/
noncomputable def applyContentConstraints (maxRimFrac : ℝ) (content : Node)
    (rim : List Node) : Node :=
  if listOuterRadius (nodeBoundary content) < highestRimSize rim / maxRimFrac then
    nodeScale (highestRimSize rim / maxRimFrac / listOuterRadius (nodeBoundary content))
      content
  else content

/-- `Circle::apply_rim_constraints`: every rim node whose outer radius is
below `circle_min_rim_ratio * mean_radius` is scaled up to that minimum. -/
noncomputable def applyRimConstraints (minRimFrac mean : ℝ) (rim : List Node) :
    List Node :=
  rim.map (fun node =>
    if listOuterRadius (nodeBoundary node) < minRimFrac * mean then
      nodeScale (minRimFrac * mean / listOuterRadius (nodeBoundary node)) node
    else node)

/-- The inner circle radius of `Circle::construct`: `Circle::wrap` of the
constrained content's boundary, whose radius is that boundary's outer
radius. -/
noncomputable def circleInnerRadius (maxRimFrac : ℝ) (content : Node)
    (rim : List Node) : ℝ :=
  listOuterRadius (nodeBoundary (applyContentConstraints maxRimFrac content rim))

/-- The outer circle radius: inner radius times the radius factor
(`double_stroke_radius_ratio` for a double stroke, `1.0` otherwise, as in
`Circle::get_outer_radius_ratio`). -/
noncomputable def circleOuterRadiusOf (double : Bool) (dsFactor maxRimFrac : ℝ)
    (content : Node) (rim : List Node) : ℝ :=
  circleInnerRadius maxRimFrac content rim * (if double then dsFactor else 1)

/-- The mean (anchor) radius: midpoint of the inner and outer radii. -/
noncomputable def circleMeanRadius (double : Bool) (dsFactor maxRimFrac : ℝ)
    (content : Node) (rim : List Node) : ℝ :=
  (circleInnerRadius maxRimFrac content rim +
    circleOuterRadiusOf double dsFactor maxRimFrac content rim) * 0.5

/-- C6: in single-stroke Circle layout with 6 rim items of equal outer
radius `s > 0` around content of outer radius `10`, with
`circle_max_rim_ratio = 2` and `circle_min_rim_ratio = 0.3`: after
`apply_rim_constraints` every rim item's outer radius is at least
`0.3 ×` the mean radius, and the outward translations of rim items at
consecutive indices point along directions that differ by exactly `2π/6`
(each translation is a positive multiple of the unit vector at its
placement angle, and consecutive placement angles differ by `τ/6`). -/
theorem circle_rim_min_size_and_spacing (content : Node) (rim : List Node)
    (s df overlapFrac : ℝ) (hlen : rim.length = 6)
    (hsz : ∀ n ∈ rim, listOuterRadius (nodeBoundary n) = s) (hs : 0 < s)
    (hcontent : listOuterRadius (nodeBoundary content) = 10) :
    (∀ n2 ∈ applyRimConstraints 0.3 (circleMeanRadius false df 2 content rim) rim,
        0.3 * circleMeanRadius false df 2 content rim ≤
          listOuterRadius (nodeBoundary n2)) ∧
    (∀ i : ℕ, rimAngle (i + 1) 6 = rimAngle i 6 + tau / 6) ∧
    (∀ (i : ℕ) (node : Node), ∃ m : ℝ, 0 < m ∧
        rimTranslation overlapFrac (circleMeanRadius false df 2 content rim)
            (circleInnerRadius 2 content rim) node i 6 =
          Vec2.smul m (Vec2.dir (rimAngle i 6))) := by
  have hinner : 0 < circleInnerRadius 2 content rim := by
    have hhigh : highestRimSize rim = s := by
      apply le_antisymm
      · exact foldl_max_le (fun n => listOuterRadius (nodeBoundary n)) rim 0 s
          hs.le (fun n hn => (hsz n hn).le)
      · have hne : rim ≠ [] := by
          intro h
          rw [h] at hlen
          simp at hlen
        obtain ⟨n0, hn0⟩ := List.exists_mem_of_ne_nil rim hne
        have hm := mem_le_foldl_max (fun n => listOuterRadius (nodeBoundary n)) hn0 0
        rw [hsz n0 hn0] at hm
        exact hm
    unfold circleInnerRadius applyContentConstraints
    rw [hhigh, hcontent]
    by_cases hc : (10 : ℝ) < s / 2
    · rw [if_pos hc, nodeRadius_scale (by positivity), hcontent]
      have hval : s / 2 / 10 * 10 = s / 2 := by ring
      rw [hval]
      linarith
    · rw [if_neg hc, hcontent]
      norm_num
  have hmean : circleMeanRadius false df 2 content rim =
      circleInnerRadius 2 content rim := by
    simp only [circleMeanRadius, circleOuterRadiusOf, Bool.false_eq_true,
      if_false]
    ring
  have hmeanpos : 0 < circleMeanRadius false df 2 content rim := by
    rw [hmean]; exact hinner
  refine ⟨?_, ?_, ?_⟩
  · intro n2 hn2
    unfold applyRimConstraints at hn2
    obtain ⟨n, hn, rfl⟩ := List.mem_map.mp hn2
    by_cases hlt : listOuterRadius (nodeBoundary n) <
        0.3 * circleMeanRadius false df 2 content rim
    · rw [if_pos hlt]
      have hfac : 0 ≤ 0.3 * circleMeanRadius false df 2 content rim /
          listOuterRadius (nodeBoundary n) := by
        rw [hsz n hn]
        positivity
      rw [nodeRadius_scale hfac, hsz n hn, div_mul_cancel₀ _ hs.ne']
    · rw [if_neg hlt]
      exact not_lt.mp hlt
  · intro i
    unfold rimAngle rimOrientation
    push_cast
    ring
  · intro i node
    refine ⟨circleMeanRadius false df 2 content rim +
      rimOffset overlapFrac (circleMeanRadius false df 2 content rim)
        (circleInnerRadius 2 content rim) node (rimAngle i 6), ?_, rfl⟩
    have hoff : (0 : ℝ) ≤ rimOffset overlapFrac
        (circleMeanRadius false df 2 content rim)
        (circleInnerRadius 2 content rim) node (rimAngle i 6) :=
      le_max_left 0 _
    linarith

/-- A content node whose boundary is a single circle of radius `10`. -/
def sampleContentNode : Node := .circle ⟨10, ⟨0, 0⟩⟩ [] (.symbol [])

/-- A rim node whose boundary is a single circle of radius `1`. -/
def sampleRimNode : Node := .circle ⟨1, ⟨0, 0⟩⟩ [] (.symbol [])

/-- Witness for C6 at six concrete unit rim items around radius-10
content. -/
theorem circle_rim_min_size_and_spacing_witness :
    ((List.replicate 6 sampleRimNode).length = 6) ∧
    (∀ n ∈ List.replicate 6 sampleRimNode,
        listOuterRadius (nodeBoundary n) = 1) ∧
    ((0 : ℝ) < 1) ∧
    (listOuterRadius (nodeBoundary sampleContentNode) = 10) ∧
    (∀ i : ℕ, rimAngle (i + 1) 6 = rimAngle i 6 + tau / 6) := by
  have hmagz : Vec2.mag ⟨0, 0⟩ = 0 := by
    unfold Vec2.mag Vec2.magSq
    norm_num
  have h1 : listOuterRadius (nodeBoundary sampleRimNode) = 1 := by
    simp only [sampleRimNode, nodeBoundary, nodeListBoundary, listOuterRadius,
      List.foldl_cons, List.foldl_nil, Shape.outerRadius, Circle.outerRadius,
      hmagz]
    norm_num
  have h2 : listOuterRadius (nodeBoundary sampleContentNode) = 10 := by
    simp only [sampleContentNode, nodeBoundary, nodeListBoundary, listOuterRadius,
      List.foldl_cons, List.foldl_nil, Shape.outerRadius, Circle.outerRadius,
      hmagz]
    norm_num
  have hall : ∀ n ∈ List.replicate 6 sampleRimNode,
      listOuterRadius (nodeBoundary n) = 1 := by
    intro n hn
    rw [List.eq_of_mem_replicate hn]
    exact h1
  refine ⟨by simp, hall, by norm_num, h2, ?_⟩
  exact (circle_rim_min_size_and_spacing sampleContentNode
    (List.replicate 6 sampleRimNode) 1 1 0.5 (by simp) hall (by norm_num) h2).2.1

end Conjure
